import Mathlib

/-!
Verification of the SAFE (Spatial Analysis of Functional Enrichment) scoring core
of the `tmap` repository (`tmap/netx/SAFE.py`, `tmap/api/SAFE_analysis.py`).

Modelling conventions:

* A pandas `DataFrame` of numeric data is represented column-major as
  `List (List ℚ)` — a list of feature columns, each column listing the values
  over the rows (nodes or samples).  All the DataFrame operations the code
  performs (`div`, `where`, `apply(…, axis=0)`, element-wise comparison and
  accumulation) act column-wise or element-wise, which this representation
  mirrors directly.
* The `Graph` collaborator is external to the verified core (the spec declares
  it an opaque interface), so it is modelled as a structure of opaque
  operations: node list, neighborhood lookup, neighborhood aggregation,
  sample-to-node transform and node-to-sample membership.
* NumPy floating point values are modelled exactly: every value arising in the
  analysed computations is either an exact rational or one of the IEEE special
  values, so values are `PVal` (a rational tagged with `+inf`, `-inf`, `NaN`
  alternatives) and division is the exact IEEE rule (`x/0 = ±inf` for `x ≠ 0`,
  `0/0 = NaN`).  No rounding occurs in the claims under study, hence the
  exact model is faithful.
* `np.random.permutation` draws are modelled by explicit permutation-index
  parameters (`perms`): theorems quantify over every possible draw.
* Python exceptions are modelled with `Except String`; a Python function that
  falls off the end returns `none` (Python `None`).
-/

/-! ## Generic list helpers -/

def zipWith3 (f : α → β → γ → δ) : List α → List β → List γ → List δ
  | a :: as, b :: bs, c :: cs => f a b c :: zipWith3 f as bs cs
  | _, _, _ => []

/-! ## Exact model of IEEE-754 double values

`PVal.fin q` is the float with exact value `q`; the remaining constructors are
the special values.  Only operations actually performed by the code are
defined: division of exact operands, comparison (`NaN` compares false),
multiplication/division by a natural and binary minimum (as in
`np.minimum`, which propagates `NaN`). -/

inductive PVal where
  | fin (q : ℚ)
  | pinf
  | ninf
  | nan
  deriving DecidableEq

/-- IEEE division of two exact (finite) operands: `x/0` is `±inf` for
nonzero `x` and `NaN` for `x = 0`; otherwise the exact quotient. -/
def pydiv (a b : ℚ) : PVal :=
  if b = 0 then (if a = 0 then PVal.nan else if 0 < a then PVal.pinf else PVal.ninf)
  else PVal.fin (a / b)

/-- IEEE `<=` on float values: any comparison with `NaN` is false. -/
def PVal.le : PVal → PVal → Bool
  | PVal.nan, _ => false
  | _, PVal.nan => false
  | PVal.ninf, _ => true
  | _, PVal.pinf => true
  | PVal.pinf, _ => false
  | _, PVal.ninf => false
  | PVal.fin a, PVal.fin b => decide (a ≤ b)

/-- Multiplication of a float by the natural `m` (IEEE: `0 * inf = NaN`). -/
def PVal.natMul (m : ℕ) : PVal → PVal
  | PVal.fin q => PVal.fin ((m : ℚ) * q)
  | PVal.pinf => if m = 0 then PVal.nan else PVal.pinf
  | PVal.ninf => if m = 0 then PVal.nan else PVal.ninf
  | PVal.nan => PVal.nan

/-- Division of a float by the natural `r` (IEEE: `±inf / r = ±inf`,
division of finite values per `pydiv`). -/
def PVal.divNat (x : PVal) (r : ℕ) : PVal :=
  match x with
  | PVal.fin q => pydiv q (r : ℚ)
  | PVal.pinf => PVal.pinf
  | PVal.ninf => PVal.ninf
  | PVal.nan => PVal.nan

/-- Binary minimum as computed by `np.minimum`: propagates `NaN`. -/
def PVal.pmin (a b : PVal) : PVal :=
  if a = PVal.nan ∨ b = PVal.nan then PVal.nan
  else if a.le b then a else b

/-- Symbolic value of `np.log10` applied to a float.  `LVal.fin q` stands for
the real number `log10 q` and records the exact positive rational `q`, so
that the sign tests the final division needs stay decidable. -/
inductive LVal where
  | fin (q : ℚ)
  | pinf
  | ninf
  | nan
  deriving DecidableEq

/-- `np.log10` on a float value: negative arguments give `NaN`, zero gives
`-inf`, positive finite `q` gives (symbolically) `log10 q`. -/
def plog10 : PVal → LVal
  | PVal.fin a => if a < 0 then LVal.nan else if a = 0 then LVal.ninf else LVal.fin a
  | PVal.pinf => LVal.pinf
  | PVal.ninf => LVal.nan
  | PVal.nan => LVal.nan

/-- A SAFE score value: an exact real, `±inf`, or `NaN`. -/
inductive SFloat where
  | fin (x : ℝ)
  | pinf
  | ninf
  | nan

/-- IEEE division of two `log10` values (numerator and denominator given as
`LVal`s).  `log10 q = 0` exactly when `q = 1` (then the float is `+0.0`), and
`log10 q < 0` exactly when `q < 1`, so every sign case of the IEEE division
rule is decided on the recorded rationals. -/
noncomputable def ldiv : LVal → LVal → SFloat
  | LVal.nan, _ => SFloat.nan
  | _, LVal.nan => SFloat.nan
  | LVal.pinf, LVal.pinf => SFloat.nan
  | LVal.pinf, LVal.ninf => SFloat.nan
  | LVal.ninf, LVal.pinf => SFloat.nan
  | LVal.ninf, LVal.ninf => SFloat.nan
  | LVal.pinf, LVal.fin b =>
      if b = 1 then SFloat.pinf else if b < 1 then SFloat.ninf else SFloat.pinf
  | LVal.ninf, LVal.fin b =>
      if b = 1 then SFloat.ninf else if b < 1 then SFloat.pinf else SFloat.ninf
  | LVal.fin _, LVal.pinf => SFloat.fin 0
  | LVal.fin _, LVal.ninf => SFloat.fin 0
  | LVal.fin a, LVal.fin b =>
      if b = 1 then (if a = 1 then SFloat.nan else if a < 1 then SFloat.ninf else SFloat.pinf)
      else SFloat.fin (Real.logb 10 (a : ℝ) / Real.logb 10 (b : ℝ))

/-! ## Benjamini–Hochberg FDR correction

`statsmodels.sandbox.stats.multicomp.multipletests(col, method='fdr_bh')[1]`
computes the Benjamini–Hochberg adjusted p-values of a vector: sort the
p-values, multiply the `k`-th smallest by `m/k`, take running minima from the
largest down and clip at 1, then restore the original order.  Tied p-values
receive equal adjusted values, so the result is order-free and equals the
closed form implemented here: the adjusted value of `p` is
`min (1, min over entries q ≥ p of q * m / #[entries ≤ q])`.
`bhAdjust` is this map on exact rationals; `bhF` is the same computation on
float values (the form the pipeline actually runs). -/

def bhAdjust (l : List ℚ) : List ℚ :=
  l.map (fun p =>
    ((l.filter (fun q => p ≤ q)).map
        (fun q => q * (l.length : ℚ) / ((l.countP (fun r => r ≤ q)) : ℚ))).foldr min 1)

def bhF (ps : List PVal) : List PVal :=
  ps.map (fun p =>
    ((ps.filter (fun q => p.le q)).map
        (fun q => (q.natMul ps.length).divNat (ps.countP (fun r => r.le q)))).foldr
      PVal.pmin (PVal.fin 1))

/-! ## Score converter (`convertor`, SAFE.py lines 35–55) -/

/-- Minimum representable p-value for `n_iter` permutations. -/
def minP (n_iter : ℕ) : ℚ := 1 / ((n_iter : ℚ) + 1)

/-- Specification-side clipped raw p-value column: `counts / n_iter` clipped
below at `minP n_iter`. -/
def clipCol (n_iter : ℕ) (col : List ℚ) : List ℚ :=
  col.map (fun c => max (minP n_iter) (c / (n_iter : ℚ)))

/-- Embedding of `convertor(compared_count, n_iter)` (SAFE.py lines 35–55):
`min_p = 1/(n_iter+1)`; `p_value_df = compared_count.div(n_iter)`;
`p_value_df.where(p_value_df >= min_p, min_p)`; Benjamini–Hochberg correction
of each column; `log10(corrected)/log10(min_p)` element-wise.  Arithmetic is
the exact float model: dividing by `n_iter = 0` produces IEEE special values,
the `where` comparison treats `NaN` as false, and the final division of logs
follows the IEEE rules. -/
noncomputable def convertor (compared_count : List (List ℚ)) (n_iter : ℕ) :
    List (List SFloat) :=
  let min_p : ℚ := minP n_iter
  let p_value_df : List (List PVal) :=
    compared_count.map (fun col => col.map (fun c => pydiv c (n_iter : ℚ)))
  let clipped : List (List PVal) :=
    p_value_df.map (fun col =>
      col.map (fun p => if (PVal.fin min_p).le p then p else PVal.fin min_p))
  let corrected := clipped.map bhF
  corrected.map (fun col => col.map (fun p => ldiv (plog10 p) (plog10 (PVal.fin min_p))))

/-! ## Data model: DataFrames, the Graph collaborator, string constants -/

/-- Column-major numeric DataFrame: one list of row values per feature. -/
abbrev DF := List (List ℚ)

/-- Row count of a DataFrame (`shape[0]`); every column of a pandas
DataFrame has the same length. -/
def dfRows (df : DF) : ℕ := (df.headD []).length

/-- Opaque `tmap.tda.Graph.Graph` collaborator, reduced to the operations the
SAFE core calls: the ordered node identifiers, the row count of `rawX`
(sample count), `get_neighborhoods`, `transform_sn(…, type='s2n')`,
`neighborhood_score(node_data, neighborhoods, mode)` and `node2sample`. -/
structure Graph where
  nodes : List ℕ
  rawXRows : ℕ
  getNeighborhoods : ℚ → ℕ → List ℕ
  transform_sn : DF → DF
  nbrScore : DF → (ℕ → List ℕ) → String → DF
  node2sample : List ℕ → List ℕ

def sNode : String := "node"
def sSample : String := "sample"
def sEnrich : String := "enrich"
def sDecline : String := "decline"
def sBoth : String := "both"
def errAssert : String := "AssertionError"
def errMode : String := "SyntaxError: _mode must be one of [enrich , decline]"
def errShape : String := "ShapeMismatch"
def errNoneScore : String := "TypeError: node_data is None"

/-! ## Permutation engine (`_permutation`, SAFE.py lines 9–32) -/

/-- One draw of `np.random.permutation(col)`: the drawn ordering is the index
list `idx` (a permutation of `range col.length`), and the shuffled column
reads the original column at those indices. -/
def permuteCol (idx : List ℕ) (col : List ℚ) : List ℚ :=
  idx.map (fun i => col.getD i 0)

/-- `data.apply(lambda col: np.random.permutation(col), axis=0)`: each column
is permuted by its own independent draw, the draws being given by `perms`. -/
def permuteDF (perms : List (List ℕ)) (data : DF) : DF :=
  List.zipWith permuteCol perms data

/-- Embedding of `_permutation(data, graph, shuffle_by)` (SAFE.py lines 9–32).
The deep copy makes the Python function non-mutating, which the pure
embedding models inherently.  For `shuffle_by='node'` it asserts that the row
count matches the node count and permutes each column; for `'sample'` it
asserts the row count matches `graph.rawX`, permutes each column, then
applies the sample-to-node transform.  Any other `shuffle_by` value falls off
the end of the function: Python returns `None` (no exception), modelled as
`Except.ok none`. -/
def _permutation (graph : Graph) (perms : List (List ℕ)) (data : DF)
    (shuffle_by : String) : Except String (Option DF) :=
  if shuffle_by = sNode then
    if dfRows data = graph.nodes.length then
      Except.ok (some (permuteDF perms data))
    else Except.error errAssert
  else if shuffle_by = sSample then
    if dfRows data = graph.rawXRows then
      Except.ok (some (graph.transform_sn (permuteDF perms data)))
    else Except.error errAssert
  else Except.ok none

/-! ## The permutation loop of `_SAFE` (SAFE.py lines 82–97) -/

/-- External computations of one SAFE batch run, recorded as an event trace:
neighborhood lookup, metadata verification, observed-score aggregation, one
permutation trial, history append. -/
inductive SEvent where
  | neighborhoods
  | verify
  | score
  | trial
  | addSafe
  deriving DecidableEq

/-- `counts[pscores cmp obs] += 1`: element-wise conditional increment of a
count matrix, as performed by the NumPy boolean-mask assignment. -/
def stepCount (cmp : ℚ → ℚ → Bool) (counts : List (List ℚ)) (ps obs : DF) :
    List (List ℚ) :=
  zipWith3 (fun ccol pcol ocol =>
      zipWith3 (fun c p o => if cmp p o then c + 1 else c) ccol pcol ocol)
    counts ps obs

/-- Enrichment comparison `permuted >= observed` (inclusive). -/
def geB (p o : ℚ) : Bool := decide (o ≤ p)

/-- Decline comparison `permuted <= observed` (inclusive). -/
def leB (p o : ℚ) : Bool := decide (p ≤ o)

/-- `np.zeros(node_data.shape)`. -/
def zerosLike (df : DF) : List (List ℚ) := df.map (fun col => col.map (fun _ => 0))

/-- One iteration of the permutation loop: permute the raw `data` (not the
transformed node data, per SAFE.py line 93), aggregate neighborhood scores of
the permuted data, then increment both count matrices with the inclusive
comparisons of SAFE.py lines 96–97.  A `None` from `_permutation` makes
`graph.neighborhood_score` fail.  Each completed trial appends a `trial`
event (the loop's progress tick). -/
def stepTrial (graph : Graph) (data : DF) (shuffle_by agg_mode : String)
    (nbhd : ℕ → List ℕ) (obs : DF) (perms : ℕ → List (List ℕ))
    (st : Except String (List (List ℚ) × List (List ℚ)) × List SEvent) (t : ℕ) :
    Except String (List (List ℚ) × List (List ℚ)) × List SEvent :=
  match st.1 with
  | Except.error e => (Except.error e, st.2)
  | Except.ok acc =>
    match _permutation graph (perms t) data shuffle_by with
    | Except.error e => (Except.error e, st.2)
    | Except.ok none => (Except.error errNoneScore, st.2)
    | Except.ok (some p_data) =>
      let ps := graph.nbrScore p_data nbhd agg_mode
      (Except.ok (stepCount geB acc.1 ps obs, stepCount leB acc.2 ps obs),
       st.2 ++ [SEvent.trial])

/-- The full permutation loop of `_SAFE` (SAFE.py lines 88–97): starting from
two zero matrices shaped like `node_data`, run `n_iter` trials. -/
def permLoop (graph : Graph) (data : DF) (shuffle_by agg_mode : String)
    (nbhd : ℕ → List ℕ) (obs : DF) (perms : ℕ → List (List ℕ))
    (node_data : DF) (n_iter : ℕ) :
    Except String (List (List ℚ) × List (List ℚ)) × List SEvent :=
  (List.range n_iter).foldl (stepTrial graph data shuffle_by agg_mode nbhd obs perms)
    (Except.ok (zerosLike node_data, zerosLike node_data), [])

/-- Pure view of the count accumulation: fold the conditional increment over a
list of per-trial score matrices. -/
def loopCounts (cmp : ℚ → ℚ → Bool) (obs : DF) (scores : List DF)
    (init : List (List ℚ)) : List (List ℚ) :=
  scores.foldl (fun acc ps => stepCount cmp acc ps obs) init

/-- Per-trial score matrices when trial `t` aggregates `pdata t`. -/
def trialScoresOf (graph : Graph) (nbhd : ℕ → List ℕ) (agg_mode : String)
    (pdata : ℕ → DF) (n : ℕ) : List DF :=
  (List.range n).map (fun t => graph.nbrScore (pdata t) nbhd agg_mode)

/-! ## `_SAFE` and `SAFE_batch` (SAFE.py lines 58–171) -/

/-- Result of a SAFE computation: one score matrix, or the enrich/decline
pair when `_mode` is `both`. -/
inductive SAFEOut where
  | single (scores : List (List SFloat))
  | both (enrichScores declineScores : List (List SFloat))

/-- Embedding of `_SAFE` (SAFE.py lines 58–115) together with its trace of
performed computations.  The mode check of lines 67–68 comes first (raising
`SyntaxError` for an invalid `_mode`); for `shuffle_by='sample'` the observed
node data is the sample-to-node transform of the raw metadata (lines 69–75);
neighborhoods are looked up only when not supplied (line 77); the observed
neighborhood scores (line 78) emit the `score` event; then the permutation
loop runs and both count matrices are converted (lines 105–108); finally the
requested matrices are returned (lines 110–115).  `verbose` only selects the
progress display and is not modelled. -/
noncomputable def _SAFE (graph : Graph) (data : DF) (n_iter : ℕ)
    (nr_threshold : ℚ) (neighborhoods : Option (ℕ → List ℕ))
    (shuffle_by _mode agg_mode : String) (perms : ℕ → List (List ℕ)) :
    Except String SAFEOut × List SEvent :=
  if _mode = sEnrich ∨ _mode = sDecline ∨ _mode = sBoth then
    let node_data := if shuffle_by = sSample then graph.transform_sn data else data
    let nbhdEv : (ℕ → List ℕ) × List SEvent :=
      match neighborhoods with
      | none => (graph.getNeighborhoods nr_threshold, [SEvent.neighborhoods])
      | some nb => (nb, [])
    let obs := graph.nbrScore node_data nbhdEv.1 agg_mode
    let lp := permLoop graph data shuffle_by agg_mode nbhdEv.1 obs perms node_data n_iter
    match lp.1 with
    | Except.error e => (Except.error e, nbhdEv.2 ++ [SEvent.score] ++ lp.2)
    | Except.ok cnts =>
      let se := convertor cnts.1 n_iter
      let sd := convertor cnts.2 n_iter
      (if _mode = sBoth then Except.ok (SAFEOut.both se sd)
       else if _mode = sEnrich then Except.ok (SAFEOut.single se)
       else Except.ok (SAFEOut.single sd),
       nbhdEv.2 ++ [SEvent.score] ++ lp.2)
  else (Except.error errMode, [])

/-- Modelled from the spec: `verify_metadata` lives in `tmap.tda.utils`,
which is not among the sources.  Per spec section 4.1 it verifies that the
metadata's row count matches the graph's node count (axis `node`) or sample
count (axis `sample`), failing with a `ShapeMismatch` error otherwise, and
returns the (numeric) metadata unchanged — the sample-to-node transform is
performed later inside `_SAFE` itself. -/
def verify_metadata (graph : Graph) (metadata : DF) (by_ : String) :
    Except String DF :=
  if by_ = sNode then
    if dfRows metadata = graph.nodes.length then Except.ok metadata
    else Except.error errShape
  else
    if dfRows metadata = graph.rawXRows then Except.ok metadata
    else Except.error errShape

/-- Embedding of `SAFE_batch` (SAFE.py lines 118–171) with its trace.  In
code order: resolve neighborhoods when not supplied (line 138, emitting the
lookup event), verify the metadata — routing every `shuffle_by` other than
`'node'` through the `'sample'` verification (lines 140–143) — then run
`_SAFE`, and on success append one parameter record to the graph's history
(two for mode `both`, lines 154–170); the history mutation is recorded as
`addSafe` events on the opaque graph. -/
noncomputable def SAFE_batch (graph : Graph) (metadata : DF) (n_iter : ℕ)
    (nr_threshold : ℚ) (neighborhoods : Option (ℕ → List ℕ))
    (shuffle_by _mode agg_mode : String) (perms : ℕ → List (List ℕ)) :
    Except String SAFEOut × List SEvent :=
  let nbhdEv : (ℕ → List ℕ) × List SEvent :=
    match neighborhoods with
    | none => (graph.getNeighborhoods nr_threshold, [SEvent.neighborhoods])
    | some nb => (nb, [])
  match verify_metadata graph metadata (if shuffle_by = sNode then sNode else sSample) with
  | Except.error e => (Except.error e, nbhdEv.2 ++ [SEvent.verify])
  | Except.ok meta =>
    let r := _SAFE graph meta n_iter nr_threshold (some nbhdEv.1) shuffle_by _mode
      agg_mode perms
    match r.1 with
    | Except.error e => (Except.error e, nbhdEv.2 ++ [SEvent.verify] ++ r.2)
    | Except.ok out =>
      (Except.ok out,
       nbhdEv.2 ++ [SEvent.verify] ++ r.2 ++
         (if _mode = sBoth then [SEvent.addSafe, SEvent.addSafe] else [SEvent.addSafe]))

/-! ## Significance extractor (`get_significant_nodes`, SAFE.py lines 174–212)
and the summary ratios (`get_SAFE_summary`, SAFE.py lines 228–298) -/

/-- A labelled score table: row labels (node or sample identifiers) plus one
value column per feature, each aligned with `index`. -/
structure ScoreDF where
  index : List ℕ
  cols : List (List ℚ)

/-- `pd.isnull` applied to a row label taken from a DataFrame index: node and
sample identifiers are integers, for which `pd.isnull` is always `False`. -/
def pd_isnull_key (_n : ℕ) : Bool := false

/-- Embedding of `get_significant_nodes(graph, safe_scores, SAFE_pvalue, …)`
(SAFE.py lines 174–212) on a `safe_scores` table already oriented nodes ×
features (the claim's premise; the code's auto-transpose for the transposed
orientation and the `SAFE_pvalue=None` threshold resolution are outside the
modelled path, the resolved threshold being the `SAFE_pvalue` argument).
`filter_dict = safe_scores.where(safe_scores >= SAFE_pvalue).to_dict()` maps
each feature to the node → value dict, with `NaN` at sub-threshold cells;
`significant_centroides` keeps, per feature, the entries `v` of `vlist` with
`not pd.isnull(v)` — iterating a dict yields its KEYS, i.e. the node labels,
so the test is applied to the labels; `significant_nodes` expands each
listed node into its neighborhood and deduplicates (`list(set(...))`).
Results are per-feature lists, positionally aligned with `s.cols`. -/
def get_significant_nodes (graph : Graph) (s : ScoreDF) (SAFE_pvalue : ℚ)
    (nr_threshold : ℚ) : List (List ℕ) × List (List ℕ) :=
  let neighborhoods := graph.getNeighborhoods nr_threshold
  let filter_dict : List (List (ℕ × Option ℚ)) :=
    s.cols.map (fun col =>
      (s.index.zip col).map (fun nv =>
        (nv.1, if SAFE_pvalue ≤ nv.2 then some nv.2 else none)))
  let significant_centroides : List (List ℕ) :=
    filter_dict.map (fun vlist => (vlist.map Prod.fst).filter (fun n => !pd_isnull_key n))
  let significant_nodes : List (List ℕ) :=
    significant_centroides.map (fun ns => (ns.map neighborhoods).flatten.dedup)
  (significant_centroides, significant_nodes)

/-- `metadata.loc[rows, feature j].sum()`: sum of the labelled rows of column
`j`.  Row labels are resolved through `index` (labels are assumed unique, as
for pandas row labels used with `.loc`). -/
def locSum (df : ScoreDF) (j : ℕ) (rows : List ℕ) : ℚ :=
  (rows.map (fun s => (df.cols.getD j []).getD (df.index.indexOf s) 0)).sum

/-- `metadata.sum(axis=0)` at feature `j`. -/
def featureTotalQ (df : ScoreDF) (j : ℕ) : ℚ := (df.cols.getD j []).sum

/-- Embedding of the `_safe_div` helper of `get_SAFE_summary` (SAFE.py lines
280–284): explicitly returns `NaN` on a zero denominator. -/
def _safe_div (x y : ℚ) : PVal :=
  if y = 0 then PVal.nan else PVal.fin (x / y)

/-- `safe_significant_samples[feature j]` (SAFE.py line 257): the samples of
the expanded significant nodes of feature `j`. -/
def sigSamples (graph : Graph) (scores : ScoreDF) (SAFE_pvalue nr_threshold : ℚ)
    (j : ℕ) : List ℕ :=
  graph.node2sample ((get_significant_nodes graph scores SAFE_pvalue nr_threshold).2.getD j [])

/-- `enriched_abundance_ratio[feature j]` (SAFE.py lines 275–277): the raw
metadata sum over the significant samples divided — with plain NumPy float
division, which produces `±inf`/`NaN` on a zero denominator instead of
raising — by the feature's total metadata sum. -/
def abundanceRatioOf (graph : Graph) (metadata scores : ScoreDF)
    (SAFE_pvalue nr_threshold : ℚ) (j : ℕ) : PVal :=
  pydiv (locSum metadata j (sigSamples graph scores SAFE_pvalue nr_threshold j))
    (featureTotalQ metadata j)

/-- `enriched_safe_ratio[feature j]` (SAFE.py lines 286–288): the SAFE score
summed over the significant centroid nodes (line 263, `safe_scores.loc
[feature, centroids]`), divided by the feature's total SAFE score
(line 246, `safe_scores.sum(1)`) through the guarded `_safe_div`.  `scores`
is oriented nodes × features here, so the feature's total score is its
column sum. -/
def safeRatioOf (graph : Graph) (scores : ScoreDF) (SAFE_pvalue nr_threshold : ℚ)
    (j : ℕ) : PVal :=
  _safe_div
    (locSum scores j ((get_significant_nodes graph scores SAFE_pvalue nr_threshold).1.getD j []))
    ((scores.cols.getD j []).sum)

/-! ## Generic list lemmas -/

lemma range_map_getD (l : List α) (d : α) :
    (List.range l.length).map (fun i => l.getD i d) = l := by
  induction l with
  | nil => simp
  | cons a t ih =>
    rw [List.length_cons, List.range_succ_eq_map, List.map_cons, List.map_map]
    simp only [List.getD_cons_zero, Function.comp_def, List.getD_cons_succ]
    rw [ih]

lemma zipWith_getD (f : α → β → γ) :
    ∀ (as : List α) (bs : List β) (k : ℕ) (da : α) (db : β) (dc : γ),
      k < as.length → k < bs.length →
      (List.zipWith f as bs).getD k dc = f (as.getD k da) (bs.getD k db)
  | [], _, _, _, _, _, h, _ => absurd h (by simp)
  | _ :: _, [], _, _, _, _, _, h => absurd h (by simp)
  | _ :: _, _ :: _, 0, _, _, _, _, _ => rfl
  | _ :: as, _ :: bs, k + 1, da, db, dc, h1, h2 =>
      zipWith_getD f as bs k da db dc (by simpa using h1) (by simpa using h2)

lemma zipWith3_length (f : α → β → γ → δ) :
    ∀ (as : List α) (bs : List β) (cs : List γ),
      (zipWith3 f as bs cs).length = min as.length (min bs.length cs.length)
  | [], bs, cs => by simp [zipWith3]
  | _ :: _, [], cs => by simp [zipWith3]
  | _ :: _, _ :: _, [] => by simp [zipWith3]
  | _ :: as, _ :: bs, _ :: cs => by
      simp only [zipWith3, List.length_cons, zipWith3_length f as bs cs]
      omega

lemma zipWith3_getD (f : α → β → γ → δ) :
    ∀ (as : List α) (bs : List β) (cs : List γ) (k : ℕ)
      (da : α) (db : β) (dc : γ) (dd : δ),
      k < as.length → k < bs.length → k < cs.length →
      (zipWith3 f as bs cs).getD k dd = f (as.getD k da) (bs.getD k db) (cs.getD k dc)
  | [], _, _, _, _, _, _, _, h, _, _ => absurd h (by simp)
  | _ :: _, [], _, _, _, _, _, _, _, h, _ => absurd h (by simp)
  | _ :: _, _ :: _, [], _, _, _, _, _, _, _, h => absurd h (by simp)
  | _ :: _, _ :: _, _ :: _, 0, _, _, _, _, _, _, _ => rfl
  | _ :: as, _ :: bs, _ :: cs, k + 1, da, db, dc, dd, h1, h2, h3 =>
      zipWith3_getD f as bs cs k da db dc dd
        (by simpa using h1) (by simpa using h2) (by simpa using h3)

lemma map_getD (f : α → β) :
    ∀ (l : List α) (k : ℕ) (da : α) (db : β), k < l.length →
      (l.map f).getD k db = f (l.getD k da)
  | [], _, _, _, h => absurd h (by simp)
  | _ :: _, 0, _, _, _ => rfl
  | _ :: l, k + 1, da, db, h => map_getD f l k da db (by simpa using h)

lemma getD_mem (l : List α) (k : ℕ) (d : α) (h : k < l.length) : l.getD k d ∈ l := by
  rw [List.getD_eq_getElem?_getD, List.getElem?_eq_getElem h]
  exact List.getElem_mem h

lemma countP_total_split (p q : α → Bool) :
    ∀ (l : List α), (∀ x ∈ l, p x = true ∨ q x = true) →
      l.countP p + l.countP q = l.length + l.countP (fun x => p x && q x)
  | [], _ => rfl
  | a :: l, h => by
      have ih := countP_total_split p q l (fun x hx => h x (List.mem_cons_of_mem a hx))
      have ha := h a (List.mem_cons_self a l)
      simp only [List.countP_cons, List.length_cons]
      rcases Bool.eq_false_or_eq_true (p a) with hb | hb <;>
        rcases Bool.eq_false_or_eq_true (q a) with hc | hc
      · simp [hb, hc]
        omega
      · simp [hb, hc]
        omega
      · simp [hb, hc]
        omega
      · rw [hb, hc] at ha
        simp at ha

lemma sum_eq_zero_entries (l : List ℚ) (hnn : ∀ c ∈ l, 0 ≤ c) (h0 : l.sum = 0) :
    ∀ c ∈ l, c = 0 := by
  induction l with
  | nil => simp
  | cons a t ih =>
    have hta : 0 ≤ a := hnn a (List.mem_cons_self a t)
    have htt : 0 ≤ t.sum := List.sum_nonneg (fun c hc => hnn c (List.mem_cons_of_mem a hc))
    rw [List.sum_cons] at h0
    have ha0 : a = 0 := by linarith
    have ht0 : t.sum = 0 := by linarith
    intro c hc
    rcases List.mem_cons.mp hc with rfl | hc
    · exact ha0
    · exact ih (fun x hx => hnn x (List.mem_cons_of_mem a hx)) ht0 c hc

lemma getD_eq_zero_of_all_zero (l : List ℚ) (hz : ∀ c ∈ l, c = 0) (k : ℕ) :
    l.getD k 0 = 0 := by
  by_cases h : k < l.length
  · exact hz _ (getD_mem l k 0 h)
  · rw [List.getD_eq_default]
    omega

/-! ## Lemmas on the float model -/

lemma pydiv_of_ne_zero (a : ℚ) {b : ℚ} (hb : b ≠ 0) : pydiv a b = PVal.fin (a / b) := by
  simp [pydiv, hb]

lemma pydiv_zero_zero : pydiv 0 0 = PVal.nan := by simp [pydiv]

lemma PVal.le_fin_fin (a b : ℚ) : (PVal.fin a).le (PVal.fin b) = decide (a ≤ b) := rfl

lemma PVal.natMul_fin (m : ℕ) (q : ℚ) :
    (PVal.fin q).natMul m = PVal.fin ((m : ℚ) * q) := rfl

lemma PVal.divNat_fin (q : ℚ) {r : ℕ} (hr : r ≠ 0) :
    (PVal.fin q).divNat r = PVal.fin (q / (r : ℚ)) := by
  simp only [PVal.divNat]
  exact pydiv_of_ne_zero q (Nat.cast_ne_zero.mpr hr)

lemma PVal.pmin_fin_fin (a b : ℚ) :
    PVal.pmin (PVal.fin a) (PVal.fin b) = PVal.fin (min a b) := by
  simp only [PVal.pmin, PVal.le_fin_fin]
  rcases le_total a b with h | h
  · simp [h, min_eq_left h]
  · by_cases hab : a ≤ b
    · simp [hab, min_eq_left hab]
    · simp [hab, min_eq_right h]

lemma foldr_pmin_map_fin (l : List ℚ) :
    (l.map PVal.fin).foldr PVal.pmin (PVal.fin 1) = PVal.fin (l.foldr min 1) := by
  induction l with
  | nil => rfl
  | cons a t ih => simp [List.foldr_cons, ih, PVal.pmin_fin_fin]

/-! ## Lemmas on the Benjamini–Hochberg correction -/

lemma bhAdjust_length (l : List ℚ) : (bhAdjust l).length = l.length := by
  simp [bhAdjust]

lemma foldr_min_le_init (l : List ℚ) (init : ℚ) : l.foldr min init ≤ init := by
  induction l with
  | nil => exact le_refl _
  | cons a t ih => exact (min_le_right a _).trans ih

lemma le_foldr_min (l : List ℚ) (init lo : ℚ) (h0 : lo ≤ init)
    (h : ∀ x ∈ l, lo ≤ x) : lo ≤ l.foldr min init := by
  induction l with
  | nil => exact h0
  | cons a t ih =>
    refine le_min (h a (List.mem_cons_self a t)) ?_
    exact ih (fun x hx => h x (List.mem_cons_of_mem a hx))

/-- Lifting: the float Benjamini–Hochberg computation on a list of finite
values agrees with the exact rational one. -/
lemma bhF_map_fin (l : List ℚ) : bhF (l.map PVal.fin) = (bhAdjust l).map PVal.fin := by
  unfold bhF bhAdjust
  rw [List.map_map, List.map_map]
  apply List.map_congr_left
  intro p _
  have hfilter : (l.map PVal.fin).filter (fun q => (PVal.fin p).le q)
      = (l.filter (fun q => p ≤ q)).map PVal.fin := by
    rw [List.filter_map]
    rfl
  have hcount : ∀ q : ℚ,
      (l.map PVal.fin).countP (fun r => r.le (PVal.fin q)) = l.countP (fun r => r ≤ q) := by
    intro q
    rw [List.countP_map]
    rfl
  simp only [Function.comp_def, hfilter, List.map_map, List.length_map]
  have hterms : (l.filter (fun q => p ≤ q)).map
        (fun q => ((PVal.fin q).natMul l.length).divNat
          ((l.map PVal.fin).countP (fun r => r.le (PVal.fin q))))
      = (l.filter (fun q => p ≤ q)).map
        (fun q => PVal.fin (q * (l.length : ℚ) / ((l.countP (fun r => r ≤ q)) : ℚ))) := by
    apply List.map_congr_left
    intro q hq
    have hqmem : q ∈ l := List.mem_of_mem_filter hq
    have hcpos : 0 < l.countP (fun r => r ≤ q) :=
      List.countP_pos_iff.mpr ⟨q, hqmem, by simp⟩
    rw [hcount q, PVal.natMul_fin, PVal.divNat_fin _ (Nat.pos_iff_ne_zero.mp hcpos)]
    rw [mul_comm]
  rw [hterms, ← foldr_pmin_map_fin]
  simp [List.map_map, Function.comp_def]

/-- Bounds of the Benjamini–Hochberg adjusted values: with every input at
least `lo` (where `0 ≤ lo ≤ 1`), every adjusted value lies in `[lo, 1]`. -/
lemma bhAdjust_bounds (l : List ℚ) (lo : ℚ) (h0 : 0 ≤ lo) (h1 : lo ≤ 1)
    (hl : ∀ x ∈ l, lo ≤ x) :
    ∀ y ∈ bhAdjust l, lo ≤ y ∧ y ≤ 1 := by
  intro y hy
  unfold bhAdjust at hy
  rcases List.mem_map.mp hy with ⟨p, _, rfl⟩
  constructor
  · apply le_foldr_min _ _ _ h1
    intro x hx
    rcases List.mem_map.mp hx with ⟨q, hq, rfl⟩
    have hqmem : q ∈ l := List.mem_of_mem_filter hq
    have hqlo : lo ≤ q := hl q hqmem
    have hq0 : 0 ≤ q := h0.trans hqlo
    have hcpos : 0 < l.countP (fun r => r ≤ q) :=
      List.countP_pos_iff.mpr ⟨q, hqmem, by simp⟩
    have hcle : l.countP (fun r => r ≤ q) ≤ l.length := List.countP_le_length _
    have hcposQ : (0 : ℚ) < (l.countP (fun r => r ≤ q) : ℚ) := by
      exact_mod_cast hcpos
    have hfac : (1 : ℚ) ≤ (l.length : ℚ) / ((l.countP (fun r => r ≤ q)) : ℚ) := by
      rw [one_le_div hcposQ]
      exact_mod_cast hcle
    have : q ≤ q * ((l.length : ℚ) / ((l.countP (fun r => r ≤ q)) : ℚ)) :=
      le_mul_of_one_le_right hq0 hfac
    calc lo ≤ q := hqlo
      _ ≤ q * ((l.length : ℚ) / ((l.countP (fun r => r ≤ q)) : ℚ)) := this
      _ = q * (l.length : ℚ) / ((l.countP (fun r => r ≤ q)) : ℚ) := by
          rw [mul_div_assoc]
  · exact foldr_min_le_init _ _

/-! ## Lemmas on `minP` and the score transform -/

lemma minP_pos (n : ℕ) : 0 < minP n := by
  unfold minP
  positivity

lemma minP_le_one (n : ℕ) : minP n ≤ 1 := by
  unfold minP
  rw [div_le_one (by positivity)]
  have : (0 : ℚ) ≤ (n : ℚ) := by positivity
  linarith

lemma minP_lt_one {n : ℕ} (hn : 1 ≤ n) : minP n < 1 := by
  unfold minP
  rw [div_lt_one (by positivity)]
  have : (1 : ℚ) ≤ (n : ℚ) := by exact_mod_cast hn
  linarith

/-- Real-analysis facts about the SAFE score transform
`p ↦ log10 p / log10 min_p` on `[min_p, 1]` with `min_p ∈ (0, 1)`: the score
lies in `[0, 1]` and equals `1` exactly at `p = min_p`. -/
lemma score_spec (p mp : ℚ) (hmp0 : 0 < mp) (hmp1 : mp < 1) (hp : mp ≤ p)
    (hp1 : p ≤ 1) :
    0 ≤ Real.logb 10 (p : ℝ) / Real.logb 10 (mp : ℝ)
    ∧ Real.logb 10 (p : ℝ) / Real.logb 10 (mp : ℝ) ≤ 1
    ∧ (Real.logb 10 (p : ℝ) / Real.logb 10 (mp : ℝ) = 1 ↔ p = mp) := by
  have hb : (1 : ℝ) < 10 := by norm_num
  have hmp0R : (0 : ℝ) < (mp : ℝ) := by exact_mod_cast hmp0
  have hmp1R : (mp : ℝ) < 1 := by exact_mod_cast hmp1
  have hpR : (mp : ℝ) ≤ (p : ℝ) := by exact_mod_cast hp
  have hp1R : (p : ℝ) ≤ 1 := by exact_mod_cast hp1
  have hp0R : (0 : ℝ) < (p : ℝ) := lt_of_lt_of_le hmp0R hpR
  have hLmp : Real.logb 10 (mp : ℝ) < 0 := Real.logb_neg hb hmp0R hmp1R
  have hLp0 : Real.logb 10 (p : ℝ) ≤ 0 := Real.logb_nonpos hb (le_of_lt hp0R) hp1R
  have hmono : Real.logb 10 (mp : ℝ) ≤ Real.logb 10 (p : ℝ) :=
    Real.logb_le_logb_of_le hb hmp0R hpR
  refine ⟨?_, ?_, ?_⟩
  · rw [le_div_iff_of_neg hLmp]
    simpa using hLp0
  · rw [div_le_one_of_neg hLmp]
    exact hmono
  · rw [div_eq_one_iff_eq (ne_of_lt hLmp)]
    constructor
    · intro h
      have := Real.logb_injOn_pos hb (Set.mem_Ioi.mpr hp0R) (Set.mem_Ioi.mpr hmp0R) h
      exact_mod_cast this
    · intro h
      rw [h]

/-- The division and clipping steps of `convertor` on one column, for
`n_iter ≥ 1`: they compute exactly the clipped rational p-values. -/
lemma convertor_col (col : List ℚ) (n : ℕ) (hn : 1 ≤ n) :
    (col.map (fun c => pydiv c (n : ℚ))).map
        (fun p => if (PVal.fin (minP n)).le p then p else PVal.fin (minP n))
      = (clipCol n col).map PVal.fin := by
  have hnQ : ((n : ℚ)) ≠ 0 := Nat.cast_ne_zero.mpr (by omega)
  rw [List.map_map]
  unfold clipCol
  rw [List.map_map]
  apply List.map_congr_left
  intro c _
  simp only [Function.comp_apply]
  rw [pydiv_of_ne_zero c hnQ, PVal.le_fin_fin]
  by_cases h : minP n ≤ c / (n : ℚ)
  · simp [h, max_eq_right h]
  · simp [h, max_eq_left (le_of_not_le h)]

/-- Cell-level description of `convertor` for `n_iter ≥ 1`: every cell is the
finite score `log10 (corrected p) / log10 (min_p)`, where the corrected p is
the Benjamini–Hochberg adjustment of the clipped column. -/
lemma convertor_cell (counts : List (List ℚ)) (n : ℕ) (hn : 1 ≤ n)
    (j i : ℕ) (hj : j < counts.length) (hi : i < (counts.getD j []).length) :
    ((convertor counts n).getD j []).getD i SFloat.nan =
      SFloat.fin
        (Real.logb 10 (((bhAdjust (clipCol n (counts.getD j []))).getD i 0 : ℚ) : ℝ) /
          Real.logb 10 ((minP n : ℚ) : ℝ)) := by
  have e0 : (convertor counts n).getD j [] =
      (bhAdjust (clipCol n (counts.getD j []))).map
        (fun p => ldiv (plog10 (PVal.fin p)) (plog10 (PVal.fin (minP n)))) := by
    show ((((counts.map _).map _).map bhF).map _).getD j [] = _
    rw [map_getD _ _ j [] [] (by simpa using hj),
        map_getD _ _ j [] [] (by simpa using hj),
        map_getD _ _ j [] [] (by simpa using hj),
        map_getD _ _ j [] [] hj]
    rw [convertor_col _ n hn, bhF_map_fin, List.map_map]
    rfl
  rw [e0]
  have hlen : i < (bhAdjust (clipCol n (counts.getD j []))).length := by
    rw [bhAdjust_length]
    unfold clipCol
    simpa using hi
  rw [map_getD _ _ i 0 SFloat.nan hlen]
  set p := (bhAdjust (clipCol n (counts.getD j []))).getD i 0 with hp
  have hpmem : p ∈ bhAdjust (clipCol n (counts.getD j [])) := getD_mem _ i 0 hlen
  have hbounds := bhAdjust_bounds (clipCol n (counts.getD j [])) (minP n)
    (le_of_lt (minP_pos n)) (minP_le_one n)
    (fun x hx => by
      rcases List.mem_map.mp hx with ⟨c, _, rfl⟩
      exact le_max_left _ _) p hpmem
  have hppos : 0 < p := lt_of_lt_of_le (minP_pos n) hbounds.1
  have hmp : 0 < minP n := minP_pos n
  have hmpne1 : minP n ≠ 1 := ne_of_lt (minP_lt_one hn)
  have hplog : plog10 (PVal.fin p) = LVal.fin p := by
    simp [plog10, not_lt.mpr (le_of_lt hppos), ne_of_gt hppos]
  have hplogm : plog10 (PVal.fin (minP n)) = LVal.fin (minP n) := by
    simp [plog10, not_lt.mpr (le_of_lt hmp), ne_of_gt hmp]
  rw [hplog, hplogm]
  simp [ldiv, hmpne1]

lemma bhAdjust_clip_bounds (col : List ℚ) (n : ℕ) (i : ℕ) (hi : i < col.length) :
    minP n ≤ (bhAdjust (clipCol n col)).getD i 0
    ∧ (bhAdjust (clipCol n col)).getD i 0 ≤ 1 := by
  have hlen : i < (bhAdjust (clipCol n col)).length := by
    rw [bhAdjust_length]
    unfold clipCol
    simpa using hi
  exact bhAdjust_bounds _ (minP n) (le_of_lt (minP_pos n)) (minP_le_one n)
    (fun x hx => by
      rcases List.mem_map.mp hx with ⟨c, _, rfl⟩
      exact le_max_left _ _)
    _ (getD_mem _ i 0 hlen)

/-- C2: for every count matrix and every `n_iter ≥ 1`, `convertor` returns at
each cell exactly `log10 (corrected_p) / log10 (min_p)`, where
`min_p = 1/(n_iter+1)`, the raw p-value is `counts/n_iter` clipped below at
`min_p` (`clipCol`), and `corrected_p` is the Benjamini–Hochberg FDR
correction applied independently to each feature column over the node
dimension (`bhAdjust` of that column). -/
theorem c2_convertor_formula (counts : List (List ℚ)) (n_iter : ℕ)
    (hn : 1 ≤ n_iter) (j i : ℕ) (hj : j < counts.length)
    (hi : i < (counts.getD j []).length) :
    ((convertor counts n_iter).getD j []).getD i SFloat.nan =
      SFloat.fin
        (Real.logb 10 (((bhAdjust (clipCol n_iter (counts.getD j []))).getD i 0 : ℚ) : ℝ) /
          Real.logb 10 ((minP n_iter : ℚ) : ℝ)) :=
  convertor_cell counts n_iter hn j i hj hi

/-- Witness for C2 at a concrete input. -/
theorem c2_convertor_formula_witness :
    1 ≤ 1 ∧
    ((convertor [[0, 1]] 1).getD 0 []).getD 0 SFloat.nan =
      SFloat.fin
        (Real.logb 10
            (((bhAdjust (clipCol 1 (([[0, 1]] : List (List ℚ)).getD 0 []))).getD 0 0 : ℚ) : ℝ) /
          Real.logb 10 ((minP 1 : ℚ) : ℝ)) :=
  ⟨by decide, c2_convertor_formula [[0, 1]] 1 (by decide) 0 0 (by decide) (by decide)⟩

/-- C3: for every `n_iter ≥ 1` and every count matrix with values in
`[0, n_iter]`, every SAFE score produced by `convertor` is a finite value in
`[0, 1]`, and a cell's score equals `1` if and only if its FDR-corrected
p-value equals the minimum representable p-value `1/(n_iter+1)`. -/
theorem c3_score_range (counts : List (List ℚ)) (n_iter : ℕ) (hn : 1 ≤ n_iter)
    (_hc : ∀ col ∈ counts, ∀ c ∈ col, 0 ≤ c ∧ c ≤ (n_iter : ℚ))
    (j i : ℕ) (hj : j < counts.length) (hi : i < (counts.getD j []).length) :
    ∃ x : ℝ,
      ((convertor counts n_iter).getD j []).getD i SFloat.nan = SFloat.fin x
      ∧ 0 ≤ x ∧ x ≤ 1
      ∧ (x = 1 ↔
          (bhAdjust (clipCol n_iter (counts.getD j []))).getD i 0 = minP n_iter) := by
  obtain ⟨hlo, hhi⟩ := bhAdjust_clip_bounds (counts.getD j []) n_iter i hi
  obtain ⟨h1, h2, h3⟩ :=
    score_spec ((bhAdjust (clipCol n_iter (counts.getD j []))).getD i 0) (minP n_iter)
      (minP_pos n_iter) (minP_lt_one hn) hlo hhi
  exact ⟨_, convertor_cell counts n_iter hn j i hj hi, h1, h2, by
    constructor
    · intro h
      exact (h3.mp h)
    · intro h
      exact (h3.mpr h)⟩

/-- Witness for C3 at a concrete input. -/
theorem c3_score_range_witness :
    1 ≤ 1 ∧
    (∀ col ∈ ([[0, 1]] : List (List ℚ)), ∀ c ∈ col, 0 ≤ c ∧ c ≤ ((1 : ℕ) : ℚ)) ∧
    ∃ x : ℝ,
      ((convertor [[0, 1]] 1).getD 0 []).getD 0 SFloat.nan = SFloat.fin x
      ∧ 0 ≤ x ∧ x ≤ 1
      ∧ (x = 1 ↔
          (bhAdjust (clipCol 1 (([[0, 1]] : List (List ℚ)).getD 0 []))).getD 0 0 = minP 1) :=
  ⟨by decide, by decide,
    c3_score_range [[0, 1]] 1 (by decide) (by decide) 0 0 (by decide) (by decide)⟩

/-! ## The degenerate `n_iter = 0` boundary (C9) -/

lemma foldr_pmin_ones (l : List PVal) (h : ∀ x ∈ l, x = PVal.fin 1) :
    l.foldr PVal.pmin (PVal.fin 1) = PVal.fin 1 := by
  induction l with
  | nil => rfl
  | cons a t ih =>
    rw [List.foldr_cons, ih (fun x hx => h x (List.mem_cons_of_mem a hx)),
        h a (List.mem_cons_self a t), PVal.pmin_fin_fin]
    norm_num

lemma bhF_ones (ps : List PVal) (h : ∀ p ∈ ps, p = PVal.fin 1) :
    ∀ x ∈ bhF ps, x = PVal.fin 1 := by
  intro x hx
  unfold bhF at hx
  rcases List.mem_map.mp hx with ⟨p, _, rfl⟩
  apply foldr_pmin_ones
  intro y hy
  rcases List.mem_map.mp hy with ⟨q, hq, rfl⟩
  have hqmem : q ∈ ps := List.mem_of_mem_filter hq
  have hq1 : q = PVal.fin 1 := h q hqmem
  subst hq1
  have hcount : ps.countP (fun r => r.le (PVal.fin 1)) = ps.length := by
    rw [List.countP_eq_length]
    intro r hr
    rw [h r hr, PVal.le_fin_fin]
    simp
  have hlen0 : ps.length ≠ 0 := by
    intro h0
    rw [List.length_eq_zero] at h0
    subst h0
    simp at hqmem
  rw [hcount, PVal.natMul_fin, PVal.divNat_fin _ hlen0]
  congr 1
  rw [mul_one]
  exact div_self (Nat.cast_ne_zero.mpr hlen0)

/-- All cells of `convertor` at `n_iter = 0` on a zero count matrix are `NaN`:
`0/0 = NaN`, the clip replaces `NaN` by `min_p = 1`, Benjamini–Hochberg fixes
the all-ones column, and `log10(1)/log10(1) = 0/0 = NaN`. -/
lemma convertor_zero_iter_nan (counts : List (List ℚ))
    (hz : ∀ col ∈ counts, ∀ c ∈ col, c = 0) :
    ∀ col ∈ convertor counts 0, ∀ s ∈ col, s = SFloat.nan := by
  have hm : minP 0 = 1 := by norm_num [minP]
  intro col hcol s hs
  simp only [convertor] at hcol
  rcases List.mem_map.mp hcol with ⟨c3, hc3, rfl⟩
  rcases List.mem_map.mp hs with ⟨p, hp, rfl⟩
  rcases List.mem_map.mp hc3 with ⟨c2, hc2, rfl⟩
  rcases List.mem_map.mp hc2 with ⟨c1, hc1, rfl⟩
  rcases List.mem_map.mp hc1 with ⟨c0, hc0, rfl⟩
  have hones : ∀ q ∈ (c0.map (fun c => pydiv c ((0 : ℕ) : ℚ))).map
      (fun p => if (PVal.fin (minP 0)).le p then p else PVal.fin (minP 0)),
      q = PVal.fin 1 := by
    intro q hq
    rcases List.mem_map.mp hq with ⟨v, hv, rfl⟩
    rcases List.mem_map.mp hv with ⟨c, hcm, rfl⟩
    have hc00 : c = 0 := hz c0 hc0 c hcm
    subst hc00
    have hdiv : pydiv (0 : ℚ) ((0 : ℕ) : ℚ) = PVal.nan := by simp [pydiv]
    rw [hdiv, hm]
    rfl
  have hp1 : p = PVal.fin 1 := bhF_ones _ hones p hp
  subst hp1
  rw [hm]
  rfl

/-- C9 counterexample: with `n_iter = 0` (so a zero count matrix, since the
loop body never runs), the pipeline's SAFE score is `NaN`, not `0` as the
claim states. -/
theorem c9_score_not_zero_counterexample :
    ((convertor [[0]] 0).getD 0 []).getD 0 (SFloat.fin 0) = SFloat.nan
    ∧ SFloat.nan ≠ SFloat.fin 0 := by
  constructor
  · have hlen : (convertor [[0]] 0).length = 1 := by
      simp [convertor]
    have hlen2 : ((convertor [[0]] 0).getD 0 []).length = 1 := by
      simp only [convertor]
      rw [map_getD _ _ 0 [] [] (by simp), map_getD _ _ 0 [] [] (by simp),
          map_getD _ _ 0 [] [] (by simp), map_getD _ _ 0 [] [] (by simp)]
      simp [bhF]
    have hmem : ((convertor [[0]] 0).getD 0 []).getD 0 (SFloat.fin 0)
        ∈ (convertor [[0]] 0).getD 0 [] :=
      getD_mem _ 0 _ (by rw [hlen2]; omega)
    have hcolmem : (convertor [[0]] 0).getD 0 [] ∈ convertor [[0]] 0 :=
      getD_mem _ 0 _ (by rw [hlen]; omega)
    exact convertor_zero_iter_nan [[0]] (by decide) _ hcolmem _ hmem
  · intro h
    cases h

/-- C9 (amended): on the degenerate boundary `n_iter = 0` the pipeline yields
`min_p = 1.0`, the permutation loop produces all-zero count matrices, and the
SAFE score of every cell is `NaN` (the division `counts/0` is not guarded:
the clip maps the resulting `NaN` p-values to `1.0` and the final transform
divides `log10(1) = 0` by `log10(1) = 0`). -/
theorem c9_zero_iter_scores (counts : List (List ℚ))
    (hz : ∀ col ∈ counts, ∀ c ∈ col, c = 0) :
    minP 0 = 1
    ∧ (∀ (graph : Graph) (data : DF) (shuffle_by agg_mode : String)
        (nbhd : ℕ → List ℕ) (obs : DF) (perms : ℕ → List (List ℕ)) (node_data : DF),
        permLoop graph data shuffle_by agg_mode nbhd obs perms node_data 0
          = (Except.ok (zerosLike node_data, zerosLike node_data), []))
    ∧ ∀ col ∈ convertor counts 0, ∀ s ∈ col, s = SFloat.nan :=
  ⟨by norm_num [minP], fun _ _ _ _ _ _ _ _ => rfl, convertor_zero_iter_nan counts hz⟩

/-- Witness for C9 (amended) at a concrete input. -/
theorem c9_zero_iter_scores_witness :
    (∀ col ∈ ([[0]] : List (List ℚ)), ∀ c ∈ col, c = 0) ∧
    (minP 0 = 1
     ∧ (∀ (graph : Graph) (data : DF) (shuffle_by agg_mode : String)
         (nbhd : ℕ → List ℕ) (obs : DF) (perms : ℕ → List (List ℕ)) (node_data : DF),
         permLoop graph data shuffle_by agg_mode nbhd obs perms node_data 0
           = (Except.ok (zerosLike node_data, zerosLike node_data), []))
     ∧ ∀ col ∈ convertor [[0]] 0, ∀ s ∈ col, s = SFloat.nan) :=
  ⟨by decide, c9_zero_iter_scores [[0]] (by decide)⟩

/-! ## C1: the significant-centroid selection of `get_significant_nodes` -/

/-- Concrete two-node graph for exercising `get_significant_nodes`: each
node's neighborhood is itself. -/
def cGraph1 : Graph := ⟨[0, 1], 2, fun _ n => [n], id, fun df _ _ => df, id⟩

/-- Concrete SAFE score table, nodes × features: node 0 scores `1`, node 1
scores `0` on the single feature. -/
def cScores1 : ScoreDF := ⟨[0, 1], [[1, 0]]⟩

/-- C1 (code bug): with threshold `1/2`, node 1 has score `0 < 1/2`, yet
`get_significant_nodes` reports both nodes as significant centroids of the
feature — the comprehension `[v for v in vlist if not pd.isnull(v)]`
iterates the keys of the node → score dict, and `pd.isnull` of an integer
node identifier is never true, so the `where`-mask filtering is lost and
every node is returned regardless of its score. -/
theorem c1_centroid_filter_bug :
    (get_significant_nodes cGraph1 cScores1 (1/2) (1/2)).1.getD 0 [] = [0, 1]
    ∧ (get_significant_nodes cGraph1 cScores1 (1/2) (1/2)).2.getD 0 [] = [0, 1]
    ∧ (cScores1.cols.getD 0 []).getD 1 0 < (1/2 : ℚ) := by
  refine ⟨by decide, by decide, by norm_num [cScores1]⟩

/-! ## C5: shuffling by node is a per-column permutation -/

/-- C5: `_permutation` with `shuffle_by='node'` succeeds on node-shaped data
and returns a table of the same shape in which every column holds exactly
the same multiset of values as the corresponding input column, for every
possible draw of per-column permutations (`hperm`).  The input table itself
is untouched: the code deep-copies it and the embedding is pure. -/
theorem c5_node_permutation_multiset (graph : Graph) (perms : List (List ℕ))
    (data : DF) (hrows : dfRows data = graph.nodes.length)
    (hlen : perms.length = data.length)
    (hperm : ∀ k, k < data.length →
      (perms.getD k []).Perm (List.range ((data.getD k []).length))) :
    _permutation graph perms data sNode = Except.ok (some (permuteDF perms data))
    ∧ (permuteDF perms data).length = data.length
    ∧ ∀ k, k < data.length →
        ((permuteDF perms data).getD k []).Perm (data.getD k []) := by
  refine ⟨?_, ?_, ?_⟩
  · simp [_permutation, hrows]
  · simp [permuteDF, hlen]
  · intro k hk
    have hzip : (permuteDF perms data).getD k []
        = permuteCol (perms.getD k []) (data.getD k []) := by
      unfold permuteDF
      have h1 : permuteCol ([] : List ℕ) ([] : List ℚ) = [] := rfl
      rw [show ([] : List ℚ) = permuteCol [] [] from rfl] at *
      exact zipWith_getD permuteCol perms data k [] [] _ (by omega) hk
    rw [hzip]
    have hmap := (hperm k hk).map (fun i => (data.getD k []).getD i 0)
    rw [range_map_getD (data.getD k []) 0] at hmap
    exact hmap

/-- Witness for C5 at a concrete input: a 2 × 2 table whose columns are
reversed resp. fixed by the drawn permutations. -/
theorem c5_node_permutation_multiset_witness :
    (dfRows [[1, 2], [3, 4]] = (⟨[7, 8], 2, fun _ n => [n], id, fun df _ _ => df, id⟩ :
        Graph).nodes.length) ∧
    (_permutation ⟨[7, 8], 2, fun _ n => [n], id, fun df _ _ => df, id⟩
        [[1, 0], [0, 1]] [[1, 2], [3, 4]] sNode
      = Except.ok (some (permuteDF [[1, 0], [0, 1]] [[1, 2], [3, 4]]))
    ∧ (permuteDF [[1, 0], [0, 1]] [[1, 2], [3, 4]]).length
        = ([[1, 2], [3, 4]] : DF).length
    ∧ ∀ k, k < ([[1, 2], [3, 4]] : DF).length →
        ((permuteDF [[1, 0], [0, 1]] [[1, 2], [3, 4]]).getD k []).Perm
          (([[1, 2], [3, 4]] : DF).getD k [])) :=
  ⟨by decide,
    c5_node_permutation_multiset ⟨[7, 8], 2, fun _ n => [n], id, fun df _ _ => df, id⟩
      [[1, 0], [0, 1]] [[1, 2], [3, 4]] (by decide) (by decide) (by decide)⟩

/-! ## C10: unrecognized shuffle axes -/

/-- C10: for every `shuffle_by` other than `'node'` and `'sample'`,
`_permutation` returns no result (Python `None`) rather than raising or
returning data, while `SAFE_batch` routes every non-`'node'` axis through
the `'sample'` verification path: with a sample-shaped table the batch
reaches the scoring stage (no rejection at entry), and the only entry
rejection possible is the sample-shape mismatch. -/
theorem c10_unrecognized_axis (graph : Graph) (perms : List (List ℕ))
    (data metadata : DF) (n_iter : ℕ) (nr : ℚ) (nb0 : Option (ℕ → List ℕ))
    (agg : String) (permF : ℕ → List (List ℕ)) (s : String)
    (h1 : s ≠ sNode) (h2 : s ≠ sSample) :
    _permutation graph perms data s = Except.ok none
    ∧ (dfRows metadata ≠ graph.rawXRows →
        (SAFE_batch graph metadata n_iter nr nb0 s sEnrich agg permF).1
          = Except.error errShape)
    ∧ (dfRows metadata = graph.rawXRows →
        SEvent.score ∈ (SAFE_batch graph metadata n_iter nr nb0 s sEnrich agg permF).2) := by
  have hss : ¬(sSample = sNode) := by decide
  refine ⟨by simp [_permutation, h1, h2], ?_, ?_⟩
  · intro hne
    simp only [SAFE_batch, verify_metadata, if_neg h1, if_neg hss, if_neg hne]
  · intro heq
    simp only [SAFE_batch, verify_metadata, if_neg h1, if_neg hss, if_pos heq]
    unfold _SAFE
    rw [if_pos (Or.inl rfl)]
    rcases nb0 with _ | nb <;>
      · simp only []
        split <;> (try split) <;> simp

/-- An unrecognized shuffle-axis string. -/
def sFoo : String := "foo"

/-- An invalid mode string. -/
def sBad : String := "bad"

/-- Aggregation-mode string used in concrete runs. -/
def sSum : String := "sum"

/-- Witness for C10 at a concrete input. -/
theorem c10_unrecognized_axis_witness :
    (sFoo ≠ sNode) ∧
    (_permutation ⟨[0], 1, fun _ n => [n], id, fun df _ _ => df, id⟩ [[0]] [[1]] sFoo
        = Except.ok none
    ∧ (dfRows [[1]] ≠ (⟨[0], 1, fun _ n => [n], id, fun df _ _ => df, id⟩ : Graph).rawXRows →
        (SAFE_batch ⟨[0], 1, fun _ n => [n], id, fun df _ _ => df, id⟩ [[1]] 1 0 none
            sFoo sEnrich sSum (fun _ => [[0]])).1 = Except.error errShape)
    ∧ (dfRows [[1]] = (⟨[0], 1, fun _ n => [n], id, fun df _ _ => df, id⟩ : Graph).rawXRows →
        SEvent.score ∈ (SAFE_batch ⟨[0], 1, fun _ n => [n], id, fun df _ _ => df, id⟩
            [[1]] 1 0 none sFoo sEnrich sSum (fun _ => [[0]])).2)) :=
  ⟨by decide,
    c10_unrecognized_axis ⟨[0], 1, fun _ n => [n], id, fun df _ _ => df, id⟩
      [[0]] [[1]] [[1]] 1 0 none sSum (fun _ => [[0]]) sFoo (by decide) (by decide)⟩

/-! ## C7: where the invalid-mode check happens -/

/-- Concrete one-node graph for the C7 counterexample. -/
def cGraph7 : Graph := ⟨[0], 1, fun _ n => [n], id, fun df _ _ => df, id⟩

/-- C7 counterexample: invoking `SAFE_batch` with the invalid mode `"bad"`
does fail with the invalid-mode (`SyntaxError`) error, but not immediately on
entry before any computation: the recorded trace shows that the neighborhood
lookup and the metadata verification already ran before the mode check
(which only happens inside `_SAFE`). -/
theorem c7_not_fail_fast_counterexample :
    (SAFE_batch cGraph7 [[1]] 1 0 none sNode sBad sSum (fun _ => [[0]])).1
      = Except.error errMode
    ∧ (SAFE_batch cGraph7 [[1]] 1 0 none sNode sBad sSum (fun _ => [[0]])).2
      = [SEvent.neighborhoods, SEvent.verify] := by
  constructor <;> rfl

/-- C7 (amended): an invalid mode makes the SAFE computation invoked through
`SAFE_batch` fail with the invalid-mode error, but the failure happens inside
`_SAFE` after `SAFE_batch`'s neighborhood lookup and metadata verification
(trace events `neighborhoods`/`verify`), and before any scoring or
permutation trial starts (no `score` or `trial` event). -/
theorem c7_invalid_mode_after_verification (graph : Graph) (metadata : DF)
    (n_iter : ℕ) (nr : ℚ) (nb0 : Option (ℕ → List ℕ)) (shuffle_by _mode agg : String)
    (perms : ℕ → List (List ℕ))
    (hm : ¬(_mode = sEnrich ∨ _mode = sDecline ∨ _mode = sBoth))
    (hv : if shuffle_by = sNode then dfRows metadata = graph.nodes.length
          else dfRows metadata = graph.rawXRows) :
    (SAFE_batch graph metadata n_iter nr nb0 shuffle_by _mode agg perms).1
      = Except.error errMode
    ∧ SEvent.verify ∈ (SAFE_batch graph metadata n_iter nr nb0 shuffle_by _mode agg perms).2
    ∧ SEvent.score ∉ (SAFE_batch graph metadata n_iter nr nb0 shuffle_by _mode agg perms).2
    ∧ SEvent.trial ∉ (SAFE_batch graph metadata n_iter nr nb0 shuffle_by _mode agg perms).2 := by
  have hss : ¬(sSample = sNode) := by decide
  by_cases hsn : shuffle_by = sNode
  · rw [if_pos hsn] at hv
    rcases nb0 with _ | nb <;>
      simp [SAFE_batch, verify_metadata, hsn, hv, _SAFE, hm]
  · rw [if_neg hsn] at hv
    rcases nb0 with _ | nb <;>
      simp [SAFE_batch, verify_metadata, hsn, hss, hv, _SAFE, hm]

/-- Witness for C7 (amended) at a concrete input. -/
theorem c7_invalid_mode_after_verification_witness :
    (¬(sBad = sEnrich ∨ sBad = sDecline ∨ sBad = sBoth)) ∧
    ((SAFE_batch cGraph7 [[1]] 1 0 none sNode sBad sSum (fun _ => [[0]])).1
      = Except.error errMode
    ∧ SEvent.verify ∈ (SAFE_batch cGraph7 [[1]] 1 0 none sNode sBad sSum (fun _ => [[0]])).2
    ∧ SEvent.score ∉ (SAFE_batch cGraph7 [[1]] 1 0 none sNode sBad sSum (fun _ => [[0]])).2
    ∧ SEvent.trial ∉ (SAFE_batch cGraph7 [[1]] 1 0 none sNode sBad sSum (fun _ => [[0]])).2) :=
  ⟨by decide,
    c7_invalid_mode_after_verification cGraph7 [[1]] 1 0 none sNode sBad sSum
      (fun _ => [[0]]) (by decide) (by decide)⟩

/-! ## C8: divide-by-zero behaviour of the summary ratios -/

/-- Graph for the C8 counterexample: one node containing only sample `0`;
sample `1` belongs to no node. -/
def cGraph8 : Graph := ⟨[0], 2, fun _ n => [n], id, fun df _ _ => df, fun ns => ns⟩

/-- Metadata whose single feature sums to zero over all samples but not over
the significant samples: values `1` and `-1` at samples `0` and `1`. -/
def cMeta8 : ScoreDF := ⟨[0, 1], [[1, -1]]⟩

/-- SAFE scores (nodes × features) for the C8 counterexample. -/
def cScores8 : ScoreDF := ⟨[0], [[5]]⟩

/-- C8 counterexample: a feature whose total raw metadata sum is exactly zero
for which the enriched abundance ratio is `+inf`, not `NaN` — the enriched
sum (over the significant samples only) is `1`, and NumPy float division
gives `1/0 = inf`.  The claim's unconditional `NaN` is therefore wrong. -/
theorem c8_ratio_inf_counterexample :
    featureTotalQ cMeta8 0 = 0
    ∧ abundanceRatioOf cGraph8 cMeta8 cScores8 0 0 0 = PVal.pinf
    ∧ PVal.pinf ≠ PVal.nan := by
  have h3 : featureTotalQ cMeta8 0 = 0 := by norm_num [featureTotalQ, cMeta8]
  have h1 : sigSamples cGraph8 cScores8 0 0 0 = [0] := by decide
  have h2 : locSum cMeta8 0 [0] = 1 := by norm_num [locSum, cMeta8]
  refine ⟨h3, ?_, by decide⟩
  unfold abundanceRatioOf
  rw [h1, h2, h3]
  norm_num [pydiv]

/-- C8 (amended): for a feature with nonnegative raw metadata (as abundances
are) whose total metadata sum is exactly zero, the enriched abundance ratio
is `NaN` (the enriched sum is then also zero, and `0/0 = NaN`) and no error
is raised — the embedding's division is total; when the metadata can be
negative the ratio can instead be `±inf`.  Likewise, whenever a feature's
total SAFE score is zero the enriched SAFE score ratio is `NaN` through the
explicit `_safe_div` guard, with no condition on the numerator. -/
theorem c8_zero_total_ratios (graph : Graph) (metadata scores : ScoreDF)
    (t nr : ℚ) (j : ℕ)
    (hnn : ∀ c ∈ metadata.cols.getD j [], 0 ≤ c)
    (h0 : featureTotalQ metadata j = 0) :
    abundanceRatioOf graph metadata scores t nr j = PVal.nan
    ∧ ((scores.cols.getD j []).sum = 0 →
        safeRatioOf graph scores t nr j = PVal.nan) := by
  constructor
  · have hall : ∀ c ∈ metadata.cols.getD j [], c = 0 :=
      sum_eq_zero_entries _ hnn h0
    have hnum : locSum metadata j (sigSamples graph scores t nr j) = 0 := by
      unfold locSum
      apply List.sum_eq_zero
      intro x hx
      rcases List.mem_map.mp hx with ⟨smp, _, rfl⟩
      exact getD_eq_zero_of_all_zero _ hall _
    unfold abundanceRatioOf
    rw [hnum, h0]
    simp [pydiv]
  · intro hts
    unfold safeRatioOf
    rw [hts]
    simp [_safe_div]

/-- Witness for C8 (amended) at a concrete input. -/
theorem c8_zero_total_ratios_witness :
    (∀ c ∈ (⟨[0], [[0]]⟩ : ScoreDF).cols.getD 0 [], 0 ≤ c) ∧
    featureTotalQ ⟨[0], [[0]]⟩ 0 = 0 ∧
    (abundanceRatioOf cGraph8 ⟨[0], [[0]]⟩ ⟨[0], [[0]]⟩ 0 0 0 = PVal.nan
    ∧ (((⟨[0], [[0]]⟩ : ScoreDF).cols.getD 0 []).sum = 0 →
        safeRatioOf cGraph8 ⟨[0], [[0]]⟩ 0 0 0 = PVal.nan)) :=
  ⟨by decide, by norm_num [featureTotalQ],
    c8_zero_total_ratios cGraph8 ⟨[0], [[0]]⟩ ⟨[0], [[0]]⟩ 0 0 0 (by decide)
      (by norm_num [featureTotalQ])⟩

/-! ## Shape bookkeeping and cell-level account of the permutation loop -/

/-- Two matrices have the same shape: equally many columns, columns of equal
length. -/
def sameShape (A : List (List α)) (B : List (List β)) : Prop :=
  A.length = B.length ∧ ∀ j, j < A.length → (A.getD j []).length = (B.getD j []).length

lemma zerosLike_shape (nd : DF) : sameShape (zerosLike nd) nd := by
  constructor
  · simp [zerosLike]
  · intro j hj
    unfold zerosLike at hj ⊢
    rw [map_getD _ _ j [] [] (by simpa using hj)]
    simp

lemma zerosLike_cell (nd : DF) (j i : ℕ) : ((zerosLike nd).getD j []).getD i 0 = 0 := by
  by_cases hj : j < nd.length
  · unfold zerosLike
    rw [map_getD _ _ j [] [] hj]
    by_cases hi : i < (nd.getD j []).length
    · rw [map_getD _ _ i 0 0 hi]
    · rw [List.getD_eq_default]
      simpa using hi
  · unfold zerosLike
    have h0 : (nd.map (fun col => col.map (fun _ => (0 : ℚ)))).getD j [] = [] := by
      apply List.getD_eq_default
      simp only [List.length_map]
      omega
    rw [h0]
    simp

lemma stepCount_shape (cmp : ℚ → ℚ → Bool) (counts ps obs : List (List ℚ)) (nd : DF)
    (hc : sameShape counts nd) (hp : sameShape ps nd) (ho : sameShape obs nd) :
    sameShape (stepCount cmp counts ps obs) nd := by
  obtain ⟨hc1, hc2⟩ := hc
  obtain ⟨hp1, hp2⟩ := hp
  obtain ⟨ho1, ho2⟩ := ho
  constructor
  · rw [stepCount, zipWith3_length, hc1, hp1, ho1]
    omega
  · intro j hj
    have hjn : j < nd.length := by
      rw [stepCount, zipWith3_length] at hj
      omega
    rw [stepCount, zipWith3_getD _ _ _ _ j [] [] [] [] (by omega) (by omega) (by omega),
        zipWith3_length, hc2 j (by omega), hp2 j (by omega), ho2 j (by omega)]
    omega

lemma stepCount_cell (cmp : ℚ → ℚ → Bool) (counts ps obs : List (List ℚ)) (nd : DF)
    (hc : sameShape counts nd) (hp : sameShape ps nd) (ho : sameShape obs nd)
    (j i : ℕ) (hj : j < nd.length) (hi : i < (nd.getD j []).length) :
    ((stepCount cmp counts ps obs).getD j []).getD i 0 =
      if cmp ((ps.getD j []).getD i 0) ((obs.getD j []).getD i 0)
      then ((counts.getD j []).getD i 0) + 1
      else (counts.getD j []).getD i 0 := by
  obtain ⟨hc1, hc2⟩ := hc
  obtain ⟨hp1, hp2⟩ := hp
  obtain ⟨ho1, ho2⟩ := ho
  rw [stepCount, zipWith3_getD _ _ _ _ j [] [] [] [] (by omega) (by omega) (by omega),
      zipWith3_getD _ _ _ _ i 0 0 0 0 (by rw [hc2 j (by omega)]; omega)
        (by rw [hp2 j (by omega)]; omega) (by rw [ho2 j (by omega)]; omega)]

lemma loopCounts_shape (cmp : ℚ → ℚ → Bool) (obs : DF) (nd : DF) :
    ∀ (scores : List DF) (init : List (List ℚ)),
      (∀ ps ∈ scores, sameShape ps nd) → sameShape init nd → sameShape obs nd →
      sameShape (loopCounts cmp obs scores init) nd
  | [], init, _, hi, _ => hi
  | ps :: scores, init, hs, hi, ho => by
      rw [loopCounts, List.foldl_cons]
      exact loopCounts_shape cmp obs nd scores _
        (fun q hq => hs q (List.mem_cons_of_mem ps hq))
        (stepCount_shape cmp init ps obs nd hi (hs ps (List.mem_cons_self ps scores)) ho)
        ho

lemma loopCounts_cell (cmp : ℚ → ℚ → Bool) (obs : DF) (nd : DF)
    (j i : ℕ) (hj : j < nd.length) (hi : i < (nd.getD j []).length) :
    ∀ (scores : List DF) (init : List (List ℚ)),
      (∀ ps ∈ scores, sameShape ps nd) → sameShape init nd → sameShape obs nd →
      ((loopCounts cmp obs scores init).getD j []).getD i 0 =
        ((init.getD j []).getD i 0) +
          ((scores.countP (fun ps =>
            cmp ((ps.getD j []).getD i 0) ((obs.getD j []).getD i 0))) : ℚ)
  | [], init, _, _, _ => by simp [loopCounts]
  | ps :: scores, init, hs, hi0, ho => by
      rw [loopCounts, List.foldl_cons]
      have hrec := loopCounts_cell cmp obs nd j i hj hi scores
        (stepCount cmp init ps obs)
        (fun q hq => hs q (List.mem_cons_of_mem ps hq))
        (stepCount_shape cmp init ps obs nd hi0 (hs ps (List.mem_cons_self ps scores)) ho)
        ho
      rw [loopCounts] at hrec
      rw [hrec, stepCount_cell cmp init ps obs nd hi0
        (hs ps (List.mem_cons_self ps scores)) ho j i hj hi, List.countP_cons]
      by_cases hcmp : cmp ((ps.getD j []).getD i 0) ((obs.getD j []).getD i 0) = true
      · rw [if_pos hcmp, if_pos hcmp]
        push_cast
        ring
      · rw [if_neg hcmp, if_neg hcmp]
        push_cast
        ring

/-- When every trial's permutation succeeds (producing `pdata t`), the
permutation loop completes with the two count matrices accumulated over the
per-trial score matrices, and one progress tick per trial. -/
lemma permLoop_ok (graph : Graph) (data : DF) (shuffle_by agg_mode : String)
    (nbhd : ℕ → List ℕ) (obs : DF) (perms : ℕ → List (List ℕ)) (node_data : DF)
    (pdata : ℕ → DF) :
    ∀ n : ℕ, (∀ t, t < n → _permutation graph (perms t) data shuffle_by
        = Except.ok (some (pdata t))) →
      permLoop graph data shuffle_by agg_mode nbhd obs perms node_data n =
        (Except.ok
          (loopCounts geB obs (trialScoresOf graph nbhd agg_mode pdata n)
            (zerosLike node_data),
           loopCounts leB obs (trialScoresOf graph nbhd agg_mode pdata n)
            (zerosLike node_data)),
         List.replicate n SEvent.trial)
  | 0, _ => rfl
  | n + 1, hok => by
      have ih := permLoop_ok graph data shuffle_by agg_mode nbhd obs perms node_data pdata n
        (fun t ht => hok t (by omega))
      rw [permLoop, List.range_succ, List.foldl_append, List.foldl_cons, List.foldl_nil]
      rw [permLoop] at ih
      rw [ih]
      rw [stepTrial]
      simp only [hok n (by omega)]
      simp only [trialScoresOf, loopCounts, List.range_succ, List.map_append,
        List.map_cons, List.map_nil, List.foldl_append, List.foldl_cons, List.foldl_nil,
        List.replicate_succ']

/-- C4: after the permutation loop of `_SAFE` runs `n_iter` trials (every
trial's permutation succeeding with permuted data `pdata t`), each cell's
enrichment count is the number of trials with permuted score `>=` observed
and the decline count the number with permuted score `<=` observed (both
inclusive, so a trial whose permuted score exactly equals the observed score
increments both — the sum exceeds `n_iter` by exactly the number of such
ties); each count is at most `n_iter` and the two counts sum to at least
`n_iter`. -/
theorem c4_count_invariants (graph : Graph) (data : DF) (shuffle_by agg_mode : String)
    (nbhd : ℕ → List ℕ) (obs : DF) (perms : ℕ → List (List ℕ)) (node_data : DF)
    (n_iter : ℕ) (pdata : ℕ → DF)
    (hok : ∀ t, t < n_iter → _permutation graph (perms t) data shuffle_by
        = Except.ok (some (pdata t)))
    (hs : ∀ t, t < n_iter → sameShape (graph.nbrScore (pdata t) nbhd agg_mode) node_data)
    (ho : sameShape obs node_data)
    (j i : ℕ) (hj : j < node_data.length) (hi : i < (node_data.getD j []).length) :
    ∃ E D : List (List ℚ),
      (permLoop graph data shuffle_by agg_mode nbhd obs perms node_data n_iter).1
        = Except.ok (E, D)
      ∧ (E.getD j []).getD i 0 = (((List.range n_iter).countP (fun t =>
            geB (((graph.nbrScore (pdata t) nbhd agg_mode).getD j []).getD i 0)
              ((obs.getD j []).getD i 0))) : ℚ)
      ∧ (D.getD j []).getD i 0 = (((List.range n_iter).countP (fun t =>
            leB (((graph.nbrScore (pdata t) nbhd agg_mode).getD j []).getD i 0)
              ((obs.getD j []).getD i 0))) : ℚ)
      ∧ (E.getD j []).getD i 0 + (D.getD j []).getD i 0
          = (n_iter : ℚ) + (((List.range n_iter).countP (fun t =>
              decide ((((graph.nbrScore (pdata t) nbhd agg_mode).getD j []).getD i 0)
                = (obs.getD j []).getD i 0))) : ℚ)
      ∧ (n_iter : ℚ) ≤ (E.getD j []).getD i 0 + (D.getD j []).getD i 0
      ∧ (E.getD j []).getD i 0 ≤ (n_iter : ℚ)
      ∧ (D.getD j []).getD i 0 ≤ (n_iter : ℚ) := by
  have hscores : ∀ ps ∈ trialScoresOf graph nbhd agg_mode pdata n_iter, sameShape ps node_data := by
    intro ps hps
    rcases List.mem_map.mp hps with ⟨t, ht, rfl⟩
    exact hs t (List.mem_range.mp ht)
  have hcellE := loopCounts_cell geB obs node_data j i hj hi
    (trialScoresOf graph nbhd agg_mode pdata n_iter) (zerosLike node_data)
    hscores (zerosLike_shape node_data) ho
  have hcellD := loopCounts_cell leB obs node_data j i hj hi
    (trialScoresOf graph nbhd agg_mode pdata n_iter) (zerosLike node_data)
    hscores (zerosLike_shape node_data) ho
  rw [zerosLike_cell, zero_add] at hcellE hcellD
  have hE : ((loopCounts geB obs (trialScoresOf graph nbhd agg_mode pdata n_iter)
      (zerosLike node_data)).getD j []).getD i 0
      = (((List.range n_iter).countP (fun t =>
          geB (((graph.nbrScore (pdata t) nbhd agg_mode).getD j []).getD i 0)
            ((obs.getD j []).getD i 0))) : ℚ) := by
    rw [hcellE, trialScoresOf, List.countP_map]
    rfl
  have hD : ((loopCounts leB obs (trialScoresOf graph nbhd agg_mode pdata n_iter)
      (zerosLike node_data)).getD j []).getD i 0
      = (((List.range n_iter).countP (fun t =>
          leB (((graph.nbrScore (pdata t) nbhd agg_mode).getD j []).getD i 0)
            ((obs.getD j []).getD i 0))) : ℚ) := by
    rw [hcellD, trialScoresOf, List.countP_map]
    rfl
  have hsplit := countP_total_split
    (fun t => geB (((graph.nbrScore (pdata t) nbhd agg_mode).getD j []).getD i 0)
      ((obs.getD j []).getD i 0))
    (fun t => leB (((graph.nbrScore (pdata t) nbhd agg_mode).getD j []).getD i 0)
      ((obs.getD j []).getD i 0))
    (List.range n_iter)
    (fun t _ => by
      unfold geB leB
      rcases le_total ((obs.getD j []).getD i 0)
          (((graph.nbrScore (pdata t) nbhd agg_mode).getD j []).getD i 0) with h | h
      · exact Or.inl (by simpa using h)
      · exact Or.inr (by simpa using h))
  have hand : ((List.range n_iter).countP (fun t =>
      geB (((graph.nbrScore (pdata t) nbhd agg_mode).getD j []).getD i 0)
        ((obs.getD j []).getD i 0)
      && leB (((graph.nbrScore (pdata t) nbhd agg_mode).getD j []).getD i 0)
        ((obs.getD j []).getD i 0)))
      = ((List.range n_iter).countP (fun t =>
          decide ((((graph.nbrScore (pdata t) nbhd agg_mode).getD j []).getD i 0)
            = (obs.getD j []).getD i 0))) := by
    apply List.countP_congr
    intro t _
    unfold geB leB
    simp only [← Bool.decide_and, decide_eq_true_eq]
    constructor
    · intro hx
      exact le_antisymm hx.2 hx.1
    · intro hx
      rw [hx]
      exact ⟨le_refl _, le_refl _⟩
  refine ⟨_, _, ?_, hE, hD, ?_, ?_, ?_, ?_⟩
  · rw [permLoop_ok graph data shuffle_by agg_mode nbhd obs perms node_data pdata n_iter hok]
  · rw [hE, hD]
    rw [hand] at hsplit
    have hlen : (List.range n_iter).length = n_iter := List.length_range n_iter
    rw [hlen] at hsplit
    exact_mod_cast hsplit
  · rw [hE, hD]
    rw [hand] at hsplit
    rw [List.length_range] at hsplit
    have h5 : n_iter ≤ (List.range n_iter).countP (fun t =>
        geB (((graph.nbrScore (pdata t) nbhd agg_mode).getD j []).getD i 0)
          ((obs.getD j []).getD i 0)) + (List.range n_iter).countP (fun t =>
        leB (((graph.nbrScore (pdata t) nbhd agg_mode).getD j []).getD i 0)
          ((obs.getD j []).getD i 0)) := by omega
    exact_mod_cast h5
  · rw [hE]
    have := List.countP_le_length (l := List.range n_iter)
      (p := fun t => geB (((graph.nbrScore (pdata t) nbhd agg_mode).getD j []).getD i 0)
        ((obs.getD j []).getD i 0))
    rw [List.length_range] at this
    exact_mod_cast this
  · rw [hD]
    have := List.countP_le_length (l := List.range n_iter)
      (p := fun t => leB (((graph.nbrScore (pdata t) nbhd agg_mode).getD j []).getD i 0)
        ((obs.getD j []).getD i 0))
    rw [List.length_range] at this
    exact_mod_cast this

/-- Concrete one-node graph for the C4 witness. -/
def cGraph4 : Graph := ⟨[0], 1, fun _ n => [n], id, fun df _ _ => df, id⟩

/-- Witness for C4 at a concrete input (one trial, one cell). -/
theorem c4_count_invariants_witness :
    (∀ t, t < 1 → _permutation cGraph4 [[0]] [[1]] sNode
        = Except.ok (some ([[1]] : DF))) ∧
    ∃ E D : List (List ℚ),
      (permLoop cGraph4 [[1]] sNode sSum (fun n => [n]) [[1]] (fun _ => [[0]]) [[1]] 1).1
        = Except.ok (E, D)
      ∧ (E.getD 0 []).getD 0 0 ≤ (1 : ℚ)
      ∧ (D.getD 0 []).getD 0 0 ≤ (1 : ℚ)
      ∧ (1 : ℚ) ≤ (E.getD 0 []).getD 0 0 + (D.getD 0 []).getD 0 0 := by
  refine ⟨fun t ht => rfl, ?_⟩
  obtain ⟨E, D, h1, _, _, _, h5, h6, h7⟩ :=
    c4_count_invariants cGraph4 [[1]] sNode sSum (fun n => [n]) [[1]] (fun _ => [[0]])
      [[1]] 1 (fun _ => [[1]]) (fun t ht => rfl)
      (fun t ht => ⟨rfl, fun _ _ => rfl⟩) ⟨rfl, fun _ _ => rfl⟩ 0 0 (by decide) (by decide)
  exact ⟨E, D, h1, h6, h7, h5⟩

/-! ## C6: dataflow of shuffling by sample -/

/-- C6: with `shuffle_by='sample'`, `_SAFE` computes the observed scores from
the sample-to-node transform of the raw metadata, and every permutation trial
permutes the raw (untransformed) sample-space metadata first and applies the
same transform afterwards, before neighborhood aggregation: the run is
exactly the counting loop over trial scores
`nbrScore (transform_sn (permuteDF (perms t) data))` against observed scores
`nbrScore (transform_sn data)`. -/
theorem c6_sample_shuffle_dataflow (graph : Graph) (data : DF) (n_iter : ℕ)
    (nr : ℚ) (nbhd : ℕ → List ℕ) (agg : String) (perms : ℕ → List (List ℕ))
    (hrows : dfRows data = graph.rawXRows) :
    _SAFE graph data n_iter nr (some nbhd) sSample sEnrich agg perms =
      (Except.ok (SAFEOut.single (convertor
        (loopCounts geB (graph.nbrScore (graph.transform_sn data) nbhd agg)
          (trialScoresOf graph nbhd agg
            (fun t => graph.transform_sn (permuteDF (perms t) data)) n_iter)
          (zerosLike (graph.transform_sn data)))
        n_iter)),
       SEvent.score :: List.replicate n_iter SEvent.trial) := by
  have hns : ¬(sSample = sNode) := by decide
  have hok : ∀ t, t < n_iter → _permutation graph (perms t) data sSample
      = Except.ok (some (graph.transform_sn (permuteDF (perms t) data))) := by
    intro t _
    unfold _permutation
    rw [if_neg hns, if_pos rfl, if_pos hrows]
  unfold _SAFE
  rw [if_pos (Or.inl rfl)]
  simp only [eq_self_iff_true, if_true]
  rw [permLoop_ok graph data sSample agg nbhd
    (graph.nbrScore (graph.transform_sn data) nbhd agg) perms (graph.transform_sn data)
    (fun t => graph.transform_sn (permuteDF (perms t) data)) n_iter hok]
  have hmb : ¬(sEnrich = sBoth) := by decide
  simp [hmb]

/-- Concrete one-node graph for the C6 witness. -/
def cGraph6 : Graph := ⟨[0], 1, fun _ n => [n], id, fun df _ _ => df, id⟩

/-- Witness for C6 at a concrete input. -/
theorem c6_sample_shuffle_dataflow_witness :
    (dfRows [[3]] = cGraph6.rawXRows) ∧
    _SAFE cGraph6 [[3]] 1 0 (some (fun n => [n])) sSample sEnrich sSum (fun _ => [[0]]) =
      (Except.ok (SAFEOut.single (convertor
        (loopCounts geB (cGraph6.nbrScore (cGraph6.transform_sn [[3]]) (fun n => [n]) sSum)
          (trialScoresOf cGraph6 (fun n => [n]) sSum
            (fun t => cGraph6.transform_sn (permuteDF ((fun _ => [[0]]) t) [[3]])) 1)
          (zerosLike (cGraph6.transform_sn [[3]])))
        1)),
       SEvent.score :: List.replicate 1 SEvent.trial) :=
  ⟨by decide,
    c6_sample_shuffle_dataflow cGraph6 [[3]] 1 0 (fun n => [n]) sSum (fun _ => [[0]])
      (by decide)⟩
